import Mathlib

/-!
Verification of the hexagonal fiber generator
(`src/hexagonal_fiber_script_v0.py`).

The four core functions of the script are embedded shallowly over the
real numbers: Python `range(lo, hi)` becomes `intRange lo hi`, the
nested `for` loops become `List.flatMap` / `List.map`, and
`np.sqrt` / `np.cos` / `np.sin` become `Real.sqrt` / `Real.cos` /
`Real.sin`.  Machine floating point is idealised as `ℝ`; all claims
proved here are exact statements over that idealisation.
-/

namespace HexFiber

/-- Python `range(lo, hi)`: the integers from `lo` (inclusive) to `hi`
(exclusive), in increasing order; empty whenever `hi ≤ lo`. -/
def intRange (lo hi : ℤ) : List ℤ :=
  (List.range (hi - lo).toNat).map fun n : ℕ => lo + (n : ℤ)

/-- Embedding of `generate_hexagonal_layer(a, radius)`: for `i` in
`range(-radius, radius + 1)` and `j` in
`range(max(-radius, -i-radius), min(radius, -i+radius) + 1)`, emit the
point `(a * (i + 0.5 * j), sqrt(3) * a / 2 * j)`. -/
noncomputable def generate_hexagonal_layer (a : ℝ) (radius : ℤ) : List (ℝ × ℝ) :=
  (intRange (-radius) (radius + 1)).flatMap fun i : ℤ =>
    (intRange (max (-radius) (-i - radius)) (min radius (-i + radius) + 1)).map fun j : ℤ =>
      (a * ((i : ℝ) + 0.5 * (j : ℝ)), Real.sqrt 3 * a / 2 * (j : ℝ))

/-- Embedding of `rotate_point(point, angle)`: standard rotation about
the origin, `(x cos θ - y sin θ, x sin θ + y cos θ)`. -/
noncomputable def rotate_point (point : ℝ × ℝ) (angle : ℝ) : ℝ × ℝ :=
  (point.1 * Real.cos angle - point.2 * Real.sin angle,
   point.1 * Real.sin angle + point.2 * Real.cos angle)

/-- Embedding of `generate_twisted_hexagonal_fiber(a, layers, theta, radius)`:
for `k` in `range(layers)`, emit every point of the base lattice rotated
by `k * theta` at height `z = k * a * sqrt(1)`.  The Python code computes
the base layer once before the loop; as the generator is pure, inlining
it here is observationally identical. -/
noncomputable def generate_twisted_hexagonal_fiber
    (a : ℝ) (layers : ℤ) (theta : ℝ) (radius : ℤ) : List (ℝ × ℝ × ℝ) :=
  (intRange 0 layers).flatMap fun k : ℤ =>
    (generate_hexagonal_layer a radius).map fun point : ℝ × ℝ =>
      ((rotate_point point ((k : ℝ) * theta)).1,
       (rotate_point point ((k : ℝ) * theta)).2,
       (k : ℝ) * a * Real.sqrt 1)

/-- Embedding of
`generate_helical_hexagonal_fiber(a, layers, theta, radius, helix_radius, helix_pitch)`:
for `k` in `range(layers)`, emit every point of the base lattice rotated
by `k * theta` and offset by
`(helix_radius * cos(k * (2π / layers)), helix_radius * sin(k * (2π / layers)))`
at height `z = k * helix_pitch`.  The division `2π / layers` sits inside
the per-`k` loop body, exactly as in the source. -/
noncomputable def generate_helical_hexagonal_fiber
    (a : ℝ) (layers : ℤ) (theta : ℝ) (radius : ℤ)
    (helix_radius helix_pitch : ℝ) : List (ℝ × ℝ × ℝ) :=
  (intRange 0 layers).flatMap fun k : ℤ =>
    (generate_hexagonal_layer a radius).map fun point : ℝ × ℝ =>
      ((rotate_point point ((k : ℝ) * theta)).1
         + helix_radius * Real.cos ((k : ℝ) * (2 * Real.pi / (layers : ℝ))),
       (rotate_point point ((k : ℝ) * theta)).2
         + helix_radius * Real.sin ((k : ℝ) * (2 * Real.pi / (layers : ℝ))),
       (k : ℝ) * helix_pitch)

/-! ### Basic lemmas about `intRange` -/

lemma intRange_length (lo hi : ℤ) : (intRange lo hi).length = (hi - lo).toNat := by
  simp [intRange]

lemma intRange_eq_nil_of_le {lo hi : ℤ} (h : hi ≤ lo) : intRange lo hi = [] := by
  have h0 : (hi - lo).toNat = 0 := by omega
  simp [intRange, h0]

lemma intRange_cons {lo hi : ℤ} (h : lo < hi) :
    intRange lo hi = lo :: intRange (lo + 1) hi := by
  have h1 : (hi - lo).toNat = (hi - (lo + 1)).toNat + 1 := by omega
  rw [intRange, intRange, h1, List.range_succ_eq_map, List.map_cons, List.map_map]
  congr 1
  · simp
  · apply List.map_congr_left
    intro n _
    simp only [Function.comp_apply]
    omega

/-! ### Rotation lemmas -/

lemma rotate_point_zero (p : ℝ × ℝ) : rotate_point p 0 = p := by
  simp [rotate_point]

/-- Claim C6: rotating by θ and then by -θ is the identity, and rotating by
2π is the identity, exactly over the real-number idealisation. -/
theorem claim_C6_rotation_inverses (p : ℝ × ℝ) (theta : ℝ) :
    rotate_point (rotate_point p theta) (-theta) = p ∧
    rotate_point p (2 * Real.pi) = p := by
  constructor
  · unfold rotate_point
    simp only [Real.cos_neg, Real.sin_neg]
    have h := Real.sin_sq_add_cos_sq theta
    obtain ⟨x, y⟩ := p
    simp only [Prod.mk.injEq]
    constructor
    · linear_combination x * h
    · linear_combination y * h
  · simp [rotate_point, Real.cos_two_pi, Real.sin_two_pi]

/-- Claim C7: with radius 0 the lattice generator returns exactly the
one-element list containing the origin, for every spacing. -/
theorem claim_C7_radius_zero (a : ℝ) :
    generate_hexagonal_layer a 0 = [((0 : ℝ), (0 : ℝ))] := by
  have h : intRange 0 1 = [0] := by
    rw [intRange_cons (by norm_num), intRange_eq_nil_of_le (by norm_num)]
  simp [generate_hexagonal_layer, h]

/-- Claim C10: with zero layers the helical generator returns the empty
list; the division `2π / layers` occurs only in the unexecuted loop
body, so no error is possible. -/
theorem claim_C10_zero_layers_helical (a theta : ℝ) (radius : ℤ)
    (helix_radius helix_pitch : ℝ) :
    generate_helical_hexagonal_fiber a 0 theta radius helix_radius helix_pitch = [] := by
  rw [generate_helical_hexagonal_fiber, intRange_eq_nil_of_le le_rfl]
  simp

/-! ### Counting the lattice points -/

lemma list_range_map_sum (f : ℕ → ℕ) (n : ℕ) :
    ((List.range n).map f).sum = ∑ t in Finset.range n, f t := by
  induction n with
  | zero => simp
  | succ n ih =>
    rw [List.range_succ, List.map_append, List.sum_append, Finset.sum_range_succ, ih]
    simp

/-- Summing a tent-shaped profile `m+1, m+2, …, 2m+1, …, m+2, m+1` over
`0, …, 2m` gives the centered hexagonal number `3m² + 3m + 1`. -/
lemma sum_tent (m : ℕ) (f : ℕ → ℕ)
    (h1 : ∀ t, t ≤ m → f t = m + 1 + t)
    (h2 : ∀ j, j < m → f (2 * m - j) = m + 1 + j) :
    ∑ t in Finset.range (2 * m + 1), f t = 3 * m ^ 2 + 3 * m + 1 := by
  have hsplit :
      ∑ t in Finset.range (2 * m + 1), f t
        = ∑ t in Finset.range (m + 1), f t + ∑ t in Finset.Ico (m + 1) (2 * m + 1), f t := by
    rw [Finset.range_eq_Ico,
      ← Finset.sum_Ico_consecutive f (Nat.zero_le (m + 1)) (by omega : m + 1 ≤ 2 * m + 1),
      Nat.Ico_zero_eq_range]
  have hlow : ∑ t in Finset.range (m + 1), f t = ∑ t in Finset.range (m + 1), (m + 1 + t) :=
    Finset.sum_congr rfl fun t ht => h1 t (by have := Finset.mem_range.mp ht; omega)
  have hhigh : ∑ t in Finset.Ico (m + 1) (2 * m + 1), f t
      = ∑ j in Finset.range m, (m + 1 + j) := by
    rw [Finset.sum_Ico_eq_sum_range]
    have hm : 2 * m + 1 - (m + 1) = m := by omega
    rw [hm, ← Finset.sum_range_reflect (fun i => f (m + 1 + i)) m]
    refine Finset.sum_congr rfl fun j hj => ?_
    have hj' : j < m := Finset.mem_range.mp hj
    have e : m + 1 + (m - 1 - j) = 2 * m - j := by omega
    rw [e, h2 j hj']
  rw [hsplit, hlow, hhigh, Finset.sum_range_succ]
  have hsum : ∑ t in Finset.range m, (m + 1 + t) = m * (m + 1) + ∑ t in Finset.range m, t := by
    rw [Finset.sum_add_distrib, Finset.sum_const, Finset.card_range, smul_eq_mul]
  rw [hsum]
  have g : (∑ i in Finset.range m, i + m) * 2 = (m + 1) * m := by
    have h := Finset.sum_range_id_mul_two (m + 1)
    rw [Finset.sum_range_succ] at h
    simpa using h
  zify at g ⊢
  linear_combination g

/-- The lattice for radius `m ≥ 0` has exactly `3m² + 3m + 1` points. -/
lemma hexLayer_length (a : ℝ) (m : ℕ) :
    (generate_hexagonal_layer a (m : ℤ)).length = 3 * m ^ 2 + 3 * m + 1 := by
  unfold generate_hexagonal_layer
  rw [List.flatMap, List.length_flatten, List.map_map]
  have h2m : ((m : ℤ) + 1 - -(m : ℤ)).toNat = 2 * m + 1 := by omega
  have houter : intRange (-(m : ℤ)) ((m : ℤ) + 1)
      = (List.range (2 * m + 1)).map (fun n : ℕ => -(m : ℤ) + n) := by
    rw [intRange, h2m]
  rw [houter, List.map_map, list_range_map_sum]
  refine sum_tent m _ (fun t ht => ?_) (fun j hj => ?_)
  · simp only [Function.comp_apply, List.length_map, intRange_length]
    omega
  · simp only [Function.comp_apply, List.length_map, intRange_length]
    omega

lemma twisted_length (a theta : ℝ) (L R : ℤ) :
    (generate_twisted_hexagonal_fiber a L theta R).length
      = L.toNat * (generate_hexagonal_layer a R).length := by
  unfold generate_twisted_hexagonal_fiber
  rw [List.flatMap, List.length_flatten, List.map_map]
  simp only [Function.comp_def, List.length_map, List.map_const', List.sum_replicate,
    smul_eq_mul, intRange_length, Int.sub_zero]

lemma helical_length (a theta hr hp : ℝ) (L R : ℤ) :
    (generate_helical_hexagonal_fiber a L theta R hr hp).length
      = L.toNat * (generate_hexagonal_layer a R).length := by
  unfold generate_helical_hexagonal_fiber
  rw [List.flatMap, List.length_flatten, List.map_map]
  simp only [Function.comp_def, List.length_map, List.map_const', List.sum_replicate,
    smul_eq_mul, intRange_length, Int.sub_zero]

/-- Claim C1: for every spacing and every non-negative radius `R`, the
lattice has exactly `3R² + 3R + 1` points. -/
theorem claim_C1_hex_layer_count (a : ℝ) (R : ℤ) (hR : 0 ≤ R) :
    ((generate_hexagonal_layer a R).length : ℤ) = 3 * R ^ 2 + 3 * R + 1 := by
  obtain ⟨m, rfl⟩ : ∃ m : ℕ, R = (m : ℤ) := ⟨R.toNat, (Int.toNat_of_nonneg hR).symm⟩
  rw [hexLayer_length]
  push_cast
  ring

theorem claim_C1_hex_layer_count_witness :
    (0 : ℤ) ≤ 2 ∧ ((generate_hexagonal_layer 1 2).length : ℤ) = 3 * 2 ^ 2 + 3 * 2 + 1 :=
  ⟨by norm_num, claim_C1_hex_layer_count 1 2 (by norm_num)⟩

/-- Claim C5: the twisted fiber has exactly `L × (3R² + 3R + 1)` points
for every positive layer count `L` and non-negative radius `R`. -/
theorem claim_C5_twisted_length (a theta : ℝ) (L R : ℤ) (hL : 0 < L) (hR : 0 ≤ R) :
    ((generate_twisted_hexagonal_fiber a L theta R).length : ℤ)
      = L * (3 * R ^ 2 + 3 * R + 1) := by
  obtain ⟨m, rfl⟩ : ∃ m : ℕ, R = (m : ℤ) := ⟨R.toNat, (Int.toNat_of_nonneg hR).symm⟩
  rw [twisted_length, hexLayer_length]
  push_cast [Int.toNat_of_nonneg hL.le]
  ring

theorem claim_C5_twisted_length_witness :
    (0 : ℤ) < 2 ∧ (0 : ℤ) ≤ 1 ∧
      ((generate_twisted_hexagonal_fiber 1 2 0 1).length : ℤ) = 2 * (3 * 1 ^ 2 + 3 * 1 + 1) :=
  ⟨by norm_num, by norm_num, claim_C5_twisted_length 1 0 2 1 (by norm_num) (by norm_num)⟩

/-! ### Negative radius and non-positive layer counts -/

lemma hexLayer_of_neg (a : ℝ) {R : ℤ} (hR : R < 0) : generate_hexagonal_layer a R = [] := by
  rw [generate_hexagonal_layer, intRange_eq_nil_of_le (by omega)]
  simp

lemma flatMap_nil_fun {α β : Type} (l : List α) :
    (l.flatMap fun _ => ([] : List β)) = [] := by
  induction l <;> simp_all

/-- Claim C9: a negative radius makes the lattice generator silently return
the empty list (the outer range is empty), so both downstream generators
return the empty coordinate list, raising no error. -/
theorem claim_C9_negative_radius (a theta hr hp : ℝ) (L R : ℤ) (hR : R < 0) :
    generate_hexagonal_layer a R = [] ∧
    generate_twisted_hexagonal_fiber a L theta R = [] ∧
    generate_helical_hexagonal_fiber a L theta R hr hp = [] := by
  refine ⟨hexLayer_of_neg a hR, ?_, ?_⟩
  · unfold generate_twisted_hexagonal_fiber
    rw [hexLayer_of_neg a hR]
    simp [flatMap_nil_fun]
  · unfold generate_helical_hexagonal_fiber
    rw [hexLayer_of_neg a hR]
    simp [flatMap_nil_fun]

theorem claim_C9_negative_radius_witness :
    (-1 : ℤ) < 0 ∧
      (generate_hexagonal_layer 1 (-1) = [] ∧
        generate_twisted_hexagonal_fiber 1 2 0 (-1) = [] ∧
        generate_helical_hexagonal_fiber 1 2 0 (-1) 0 0 = []) :=
  ⟨by norm_num, claim_C9_negative_radius 1 0 0 0 2 (-1) (by norm_num)⟩

/-- Claim C8 counterexample: with spacing 1 and the invalid radius -1 the
lattice generator does not fail fast with a domain error; it silently
returns the empty (degenerate) list. -/
theorem claim_C8_counterexample : generate_hexagonal_layer 1 (-1) = [] :=
  hexLayer_of_neg 1 (by norm_num)

/-- Claim C8 (amended): the generators perform no input validation and never
raise a domain error: a negative radius silently yields the empty lattice,
a non-positive layer count silently yields the empty fiber, and a
non-positive spacing is silently accepted (spacing -1 at radius 1 still
yields the full 7-point lattice). -/
theorem claim_C8_amended (a theta hr hp : ℝ) (R L R2 : ℤ) (hR : R < 0) (hL : L ≤ 0) :
    generate_hexagonal_layer a R = [] ∧
    generate_twisted_hexagonal_fiber a L theta R2 = [] ∧
    generate_helical_hexagonal_fiber a L theta R2 hr hp = [] ∧
    (generate_hexagonal_layer (-1) 1).length = 7 := by
  have hnil : intRange 0 L = [] := intRange_eq_nil_of_le hL
  refine ⟨hexLayer_of_neg a hR, ?_, ?_, ?_⟩
  · unfold generate_twisted_hexagonal_fiber
    rw [hnil]
    simp
  · unfold generate_helical_hexagonal_fiber
    rw [hnil]
    simp
  · have h := hexLayer_length (-1) 1
    norm_num at h
    exact h

theorem claim_C8_amended_witness :
    (-1 : ℤ) < 0 ∧ (0 : ℤ) ≤ 0 ∧
      (generate_hexagonal_layer 1 (-1) = [] ∧
        generate_twisted_hexagonal_fiber 1 0 0 5 = [] ∧
        generate_helical_hexagonal_fiber 1 0 0 5 0 0 = [] ∧
        (generate_hexagonal_layer (-1) 1).length = 7) :=
  ⟨by norm_num, by norm_num, claim_C8_amended 1 0 0 0 (-1) 0 5 (by norm_num) (by norm_num)⟩

/-! ### The first layer and the twist/helix relationship -/

/-- Claim C2: for a positive layer count, the first `|base lattice|` points
of the twisted fiber are exactly the base lattice embedded at `z = 0`
(the k = 0 layer is rotated by `0·θ = 0` and placed at `z = 0·a = 0`). -/
theorem claim_C2_first_layer (a theta : ℝ) (L R : ℤ) (hL : 0 < L) :
    (generate_twisted_hexagonal_fiber a L theta R).take
        (generate_hexagonal_layer a R).length
      = (generate_hexagonal_layer a R).map fun p : ℝ × ℝ => (p.1, p.2, (0 : ℝ)) := by
  unfold generate_twisted_hexagonal_fiber
  rw [intRange_cons hL, List.flatMap_cons,
    List.take_left' (by rw [List.length_map])]
  refine List.map_congr_left fun p _ => ?_
  simp [rotate_point_zero]

theorem claim_C2_first_layer_witness :
    (0 : ℤ) < 1 ∧
      (generate_twisted_hexagonal_fiber 1 1 0 0).take (generate_hexagonal_layer 1 0).length
        = (generate_hexagonal_layer 1 0).map fun p : ℝ × ℝ => (p.1, p.2, (0 : ℝ)) :=
  ⟨by norm_num, claim_C2_first_layer 1 0 1 0 (by norm_num)⟩

/-- Claim C3: with helix radius 0, the helical generator produces at every
position exactly the same (x, y) pair as the twisted generator; only the z
coordinates (k·pitch versus k·a) may differ. -/
theorem claim_C3_helical_degenerate (a theta hp : ℝ) (L R : ℤ) (hL : 0 < L) :
    (generate_helical_hexagonal_fiber a L theta R 0 hp).map (fun q : ℝ × ℝ × ℝ => (q.1, q.2.1))
      = (generate_twisted_hexagonal_fiber a L theta R).map (fun q : ℝ × ℝ × ℝ => (q.1, q.2.1)) := by
  unfold generate_helical_hexagonal_fiber generate_twisted_hexagonal_fiber
  rw [List.map_flatMap, List.map_flatMap]
  refine congrArg _ ?_
  funext k
  rw [List.map_map, List.map_map]
  refine List.map_congr_left fun p _ => ?_
  simp

theorem claim_C3_helical_degenerate_witness :
    (0 : ℤ) < 1 ∧
      (generate_helical_hexagonal_fiber 1 1 0 0 0 2).map (fun q : ℝ × ℝ × ℝ => (q.1, q.2.1))
        = (generate_twisted_hexagonal_fiber 1 1 0 0).map (fun q : ℝ × ℝ × ℝ => (q.1, q.2.1)) :=
  ⟨by norm_num, claim_C3_helical_degenerate 1 0 2 1 0 (by norm_num)⟩

/-! ### Layer-major ordering -/

/-- Slicing a `flatMap` whose pieces all have length `B`: the `k`-th
contiguous `B`-sized chunk is exactly the `k`-th piece. -/
lemma flatMap_slice {α β : Type} (B : ℕ) :
    ∀ (l : List α) (f : α → List β), (∀ x ∈ l, (f x).length = B) →
      ∀ (k : ℕ) (hk : k < l.length),
        ((l.flatMap f).drop (k * B)).take B = f (l.get ⟨k, hk⟩) := by
  intro l
  induction l with
  | nil =>
    intro f hf k hk
    simp at hk
  | cons x xs ih =>
    intro f hf k hk
    have hx : (f x).length = B := hf x (List.mem_cons_self x xs)
    cases k with
    | zero =>
      have hget : (x :: xs).get ⟨0, hk⟩ = x := rfl
      rw [hget, List.flatMap_cons, Nat.zero_mul, List.drop_zero, List.take_left' hx]
    | succ k =>
      have hk' : k < xs.length := by
        simp only [List.length_cons] at hk
        omega
      have hget : (x :: xs).get ⟨k + 1, hk⟩ = xs.get ⟨k, hk'⟩ := rfl
      have hmul : (k + 1) * B = B + k * B := by ring
      rw [hget, List.flatMap_cons, hmul, ← List.drop_drop, List.drop_left' hx]
      exact ih f (fun y hy => hf y (List.mem_cons_of_mem x hy)) k hk'

lemma intRange_get (lo hi : ℤ) (k : ℕ) (hk : k < (intRange lo hi).length) :
    (intRange lo hi).get ⟨k, hk⟩ = lo + (k : ℤ) := by
  simp [intRange]

/-- Claim C4: both generators emit their output layer-major: for every layer
index `k < L`, the contiguous slice `coords[k·N : (k+1)·N]`, with
`N = len(coords) / L`, is exactly layer `k` — the base lattice, in the
lattice generator's output order, with layer `k`'s transform applied to
each point. -/
theorem claim_C4_layer_major (a theta hr hp : ℝ) (L R : ℤ) (k : ℕ)
    (hL : 0 < L) (hk : (k : ℤ) < L) :
    (((generate_twisted_hexagonal_fiber a L theta R).drop
          (k * ((generate_twisted_hexagonal_fiber a L theta R).length / L.toNat))).take
        ((generate_twisted_hexagonal_fiber a L theta R).length / L.toNat)
      = (generate_hexagonal_layer a R).map fun p : ℝ × ℝ =>
          ((rotate_point p ((k : ℝ) * theta)).1,
           (rotate_point p ((k : ℝ) * theta)).2,
           (k : ℝ) * a * Real.sqrt 1)) ∧
    (((generate_helical_hexagonal_fiber a L theta R hr hp).drop
          (k * ((generate_helical_hexagonal_fiber a L theta R hr hp).length / L.toNat))).take
        ((generate_helical_hexagonal_fiber a L theta R hr hp).length / L.toNat)
      = (generate_hexagonal_layer a R).map fun p : ℝ × ℝ =>
          ((rotate_point p ((k : ℝ) * theta)).1
             + hr * Real.cos ((k : ℝ) * (2 * Real.pi / (L : ℝ))),
           (rotate_point p ((k : ℝ) * theta)).2
             + hr * Real.sin ((k : ℝ) * (2 * Real.pi / (L : ℝ))),
           (k : ℝ) * hp)) := by
  have hLpos : 0 < L.toNat := by omega
  have hNt : (generate_twisted_hexagonal_fiber a L theta R).length / L.toNat
      = (generate_hexagonal_layer a R).length := by
    rw [twisted_length, Nat.mul_div_cancel_left _ hLpos]
  have hNh : (generate_helical_hexagonal_fiber a L theta R hr hp).length / L.toNat
      = (generate_hexagonal_layer a R).length := by
    rw [helical_length, Nat.mul_div_cancel_left _ hLpos]
  rw [hNt, hNh]
  have hkl : k < (intRange 0 L).length := by
    rw [intRange_length]
    omega
  constructor
  · have ht := flatMap_slice (generate_hexagonal_layer a R).length (intRange 0 L)
      (fun i : ℤ =>
        (generate_hexagonal_layer a R).map fun point : ℝ × ℝ =>
          ((rotate_point point ((i : ℝ) * theta)).1,
           (rotate_point point ((i : ℝ) * theta)).2,
           (i : ℝ) * a * Real.sqrt 1))
      (fun x _ => List.length_map _ _) k hkl
    rw [intRange_get, zero_add] at ht
    exact ht
  · have hh := flatMap_slice (generate_hexagonal_layer a R).length (intRange 0 L)
      (fun i : ℤ =>
        (generate_hexagonal_layer a R).map fun point : ℝ × ℝ =>
          ((rotate_point point ((i : ℝ) * theta)).1
             + hr * Real.cos ((i : ℝ) * (2 * Real.pi / (L : ℝ))),
           (rotate_point point ((i : ℝ) * theta)).2
             + hr * Real.sin ((i : ℝ) * (2 * Real.pi / (L : ℝ))),
           (i : ℝ) * hp))
      (fun x _ => List.length_map _ _) k hkl
    rw [intRange_get, zero_add] at hh
    exact hh

theorem claim_C4_layer_major_witness :
    (0 : ℤ) < 2 ∧ ((1 : ℕ) : ℤ) < 2 ∧
      ((((generate_twisted_hexagonal_fiber 1 2 0 0).drop
            (1 * ((generate_twisted_hexagonal_fiber 1 2 0 0).length / (2 : ℤ).toNat))).take
          ((generate_twisted_hexagonal_fiber 1 2 0 0).length / (2 : ℤ).toNat)
        = (generate_hexagonal_layer 1 0).map fun p : ℝ × ℝ =>
            ((rotate_point p (((1 : ℕ) : ℝ) * 0)).1,
             (rotate_point p (((1 : ℕ) : ℝ) * 0)).2,
             ((1 : ℕ) : ℝ) * 1 * Real.sqrt 1)) ∧
       (((generate_helical_hexagonal_fiber 1 2 0 0 0 1).drop
            (1 * ((generate_helical_hexagonal_fiber 1 2 0 0 0 1).length / (2 : ℤ).toNat))).take
          ((generate_helical_hexagonal_fiber 1 2 0 0 0 1).length / (2 : ℤ).toNat)
        = (generate_hexagonal_layer 1 0).map fun p : ℝ × ℝ =>
            ((rotate_point p (((1 : ℕ) : ℝ) * 0)).1
               + 0 * Real.cos (((1 : ℕ) : ℝ) * (2 * Real.pi / ((2 : ℤ) : ℝ))),
             (rotate_point p (((1 : ℕ) : ℝ) * 0)).2
               + 0 * Real.sin (((1 : ℕ) : ℝ) * (2 * Real.pi / ((2 : ℤ) : ℝ))),
             ((1 : ℕ) : ℝ) * 1))) :=
  ⟨by norm_num, by norm_num, claim_C4_layer_major 1 0 0 1 2 0 1 (by norm_num) (by norm_num)⟩

end HexFiber
